import Mathlib

/-!
Shallow embedding of the template rendering engine (`template/template.go`)
and the staging zip filesystem (`convert/fs.go`) of the repository, together
with proofs checking the natural-language specification's claims against it.

Conventions:
* Go strings are Lean `String`s; the handful of `strings` standard-library
  functions the code uses (`Contains`, `Replace` with limit 1, `TrimSpace`)
  are re-implemented below over `List Char` with Go's semantics (Go's
  `TrimSpace` trims Unicode white space; the model trims the ASCII white
  space characters, which coincides with Go on all ASCII inputs).
* The external template evaluator (`text/template`'s `Execute`) is a
  parameter `exec` mapping a parse tree and a binding map to the bytes it
  writes plus an optional error; the renderer's own control flow (which
  trees it executes, with which bindings, and what reaches the caller's
  writer) is embedded concretely.
* Machine integers do not overflow in any modelled code path, so `Nat` is
  used throughout.
-/

set_option autoImplicit false

namespace Ollama

/-- Model of Go `strings`: does `needle` occur at the head of `hay`? -/
def leadMatch : List Char → List Char → Bool
  | [], _ => true
  | _ :: _, [] => false
  | a :: as, b :: bs => a = b && leadMatch as bs

/-- Model of Go `strings.Contains(s, sub)` on character lists. -/
def hasSubList (needle : List Char) : List Char → Bool
  | [] => leadMatch needle []
  | c :: t => leadMatch needle (c :: t) || hasSubList needle t

/-- Model of Go `strings.Contains`. -/
def goContains (s sub : String) : Bool :=
  hasSubList sub.data s.data

/-- Replace the first occurrence of `old` (non-empty) in the list. -/
def replaceList (old new : List Char) : List Char → List Char
  | [] => []
  | c :: t =>
    if leadMatch old (c :: t) then new ++ (c :: t).drop old.length
    else c :: replaceList old new t

/-- Model of Go `strings.Replace(s, old, new, 1)`. -/
def goReplaceOne (s old new : String) : String :=
  if old.data = [] then ⟨new.data ++ s.data⟩ else ⟨replaceList old.data new.data s.data⟩

/-- The ASCII white-space characters trimmed by Go's `strings.TrimSpace`. -/
def isSpaceGo (c : Char) : Bool :=
  c = ' ' || c = '\t' || c = '\n' || c = '\r' || c = '\x0b' || c = '\x0c'

/-- Drop leading white space from a character list. -/
def trimLead : List Char → List Char
  | [] => []
  | c :: rest => if isSpaceGo c then trimLead rest else c :: rest

/-- Model of Go `strings.TrimSpace`. -/
def goTrimSpace (s : String) : String :=
  ⟨((trimLead ((trimLead s.data).reverse)).reverse)⟩

/-- Model of Go `strings.ToLower` (`unicode` lowering restricted to its
ASCII part, which coincides with Go on the identifiers that occur in
templates). -/
def lowerStr (s : String) : String :=
  ⟨s.data.map Char.toLower⟩

/-- Concatenation of a list of strings (Go repeated `+=`). -/
def joinStr : List String → String
  | [] => ""
  | s :: rest => s ++ joinStr rest

/-- Model of `api.Message`: role, content, attached images and tool calls.
Images and tool calls are opaque payloads; only their count/role matter to
the modelled code. -/
structure Message where
  role : String
  content : String
  images : List String
  toolCalls : List String
  deriving Repr, DecidableEq

/-- Opaque model of `api.Tool`. -/
def Tool := String
deriving instance DecidableEq, Repr for Tool

/-- The inner `for range msg.Images` loop of `collate`
(`template.go:280-288`): one `[img-N]` marker per image, substituting a
generic `[img]` placeholder when present and prepending one otherwise;
returns the rewritten content and the advanced counter. -/
def annotateImages : Nat → String → List String → String × Nat
  | n, content, [] => (content, n)
  | n, content, _ :: rest =>
    let imageTag := "[img-" ++ toString n ++ "]"
    let content :=
      if !(goContains content "[img]") then goTrimSpace ("[img] " ++ content)
      else content
    let content := goReplaceOne content "[img]" imageTag
    annotateImages (n + 1) content rest

/-- The append-or-merge step of `collate` (`template.go:290-294`): when the
last collated message has the same role, fold the new content into it after
two newlines; otherwise append a new entry. -/
def appendMerge (collated : List Message) (m : Message) : List Message :=
  match collated.getLast? with
  | some last =>
    if last.role == m.role then
      collated.dropLast ++ [{ last with content := last.content ++ "\n\n" ++ m.content }]
    else collated ++ [m]
  | none => collated ++ [m]

/-- The loop body state of `collate` (`template.go:267-298`): remaining
messages, accumulated system text, collated output so far, image counter.
Each iteration reads `msgs[i]` into a fresh copy (`msg := msgs[i]`), so the
caller's slice is never written. Returns (system, collated, counter). -/
def collateLoop : List Message → String → List Message → Nat → String × List Message × Nat
  | [], system, collated, n => (system, collated, n)
  | m :: rest, system, collated, n =>
    if m.role == "system" then
      let system := (if system ≠ "" then system ++ "\n\n" else system) ++ m.content
      collateLoop rest system collated n
    else
      let an := annotateImages n m.content m.images
      collateLoop rest system (appendMerge collated { m with content := an.1 }) an.2

/-- Model of `collate` (`template.go:267`). -/
def collate (msgs : List Message) : String × List Message :=
  let r := collateLoop msgs "" [] 0
  (r.1, r.2.1)

/-- The caller-visible state of the `msgs` slice after `collate` returns.
The loop copies each element (`msg := msgs[i]`) and annotates the copy; no
assignment through the slice occurs anywhere in `collate`, so the post-call
state equals the argument. -/
def collateCallerAfter (msgs : List Message) : List Message :=
  msgs

/-- Model of the `text/template/parse` node kinds inspected by
`Identifiers` (`template.go:300-343`). A branch node's `List`/`ElseList`
are the node sequences of the corresponding `*parse.ListNode`; a pipe's
commands are each given by their argument list. Node kinds the code never
inspects (text, comments, literals) are collapsed into `textNode`. -/
inductive Node where
  | textNode (s : String)
  | listNode (ns : List Node)
  | actionNode (pipe : Node)
  | templateNode (pipe : Node)
  | ifNode (pipe : Node) (list : List Node) (elseList : Option (List Node))
  | rangeNode (pipe : Node) (list : List Node) (elseList : Option (List Node))
  | withNode (pipe : Node) (list : List Node) (elseList : Option (List Node))
  | pipeNode (cmds : List (List Node))
  | fieldNode (ident : List String)
  | variableNode (ident : List String)
  deriving Repr

mutual

/-- Model of `Identifiers` (`template.go:301`): every field/variable
identifier anywhere under the node, in traversal order. `IfNode`,
`RangeNode` and `WithNode` all defer to the shared branch handling
(pipe, then list, then else-list). -/
def Identifiers : Node → List String
  | .textNode _ => []
  | .listNode ns => identList ns
  | .actionNode p => Identifiers p
  | .templateNode p => Identifiers p
  | .ifNode p l e => Identifiers p ++ identList l ++ identElse e
  | .rangeNode p l e => Identifiers p ++ identList l ++ identElse e
  | .withNode p l e => Identifiers p ++ identList l ++ identElse e
  | .pipeNode cmds => identCmds cmds
  | .fieldNode ident => ident
  | .variableNode ident => ident
  termination_by structural n => n

/-- `Identifiers` over a node sequence. -/
def identList : List Node → List String
  | [] => []
  | n :: ns => Identifiers n ++ identList ns
  termination_by structural l => l

/-- `Identifiers` over an optional else-list. -/
def identElse : Option (List Node) → List String
  | none => []
  | some l => identList l
  termination_by structural o => o

/-- `Identifiers` over a pipe's commands: each command contributes its
arguments' identifiers in order. -/
def identCmds : List (List Node) → List String
  | [] => []
  | args :: rest => identList args ++ identCmds rest
  termination_by structural l => l

end

/-- A compiled template's trees: the main tree's root node sequence plus
the root sequences of any associated (defined) sub-templates, as iterated
by `t.Templates()`. -/
structure ParsedTmpl where
  main : List Node
  subs : List (List Node)
  deriving Repr

/-- Insert into a `≤`-sorted list of strings. -/
def insertSorted (x : String) : List String → List String
  | [] => [x]
  | y :: ys => if x ≤ y then x :: y :: ys else y :: insertSorted x ys

/-- Insertion sort on strings. `slices.Sort` is modelled by insertion sort:
on the deduplicated input both produce the unique sorted arrangement of the
same distinct elements. -/
def sortStrs : List String → List String
  | [] => []
  | x :: xs => insertSorted x (sortStrs xs)

/-- Model of `(*Template).Vars` (`template.go:137-153`): all identifiers of
every associated template, lowercased, deduplicated (the `set` map) and
sorted. -/
def VarsOf (pt : ParsedTmpl) : List String :=
  sortStrs ((((pt.main :: pt.subs).flatMap identList).map lowerStr).dedup)

/-- Model of the `Template` wrapper (`template.go:82-85`): compiled trees
plus the verbatim raw source. -/
structure Template where
  tmpl : ParsedTmpl
  raw : String
  deriving Repr

/-- The synthetic `{{ .Response }}` action node (`template.go:88-104`). -/
def responseNode : Node :=
  .actionNode (.pipeNode [[.fieldNode ["Response"]]])

/-- Model of `Parse` (`template.go:116-131`), parameterized by the external
`text/template` compiler `compile`: on success wrap the trees with the raw
source, and when the variable set contains neither "messages" nor
"response", append the synthetic `{{ .Response }}` node to the main root
sequence. -/
def Parse (compile : String → Except String ParsedTmpl) (s : String) : Except String Template :=
  match compile s with
  | .error e => .error e
  | .ok pt =>
    if !(VarsOf pt).contains "messages" && !(VarsOf pt).contains "response" then
      .ok ⟨{ pt with main := pt.main ++ [responseNode] }, s⟩
    else
      .ok ⟨pt, s⟩

/-- Model of `(*Template).String` (`template.go:133`). -/
def Template.String (t : Template) : String :=
  t.raw

/-- Levenshtein edit distance on character lists (the function computed by
the external `levenshtein.ComputeDistance`), in its textbook recursive
form. -/
def levList : List Char → List Char → Nat
  | [], ys => ys.length
  | x :: xs, [] => (x :: xs).length
  | x :: xs, y :: ys =>
    if x = y then levList xs ys
    else 1 + min (levList xs (y :: ys)) (min (levList (x :: xs) ys) (levList xs ys))
  termination_by xs ys => xs.length + ys.length

/-- Levenshtein distance on strings. -/
def levenshtein (a b : String) : Nat :=
  levList a.data b.data

/-- A catalog entry (`named`, `template.go:48-52`). -/
structure NamedEntry where
  name : String
  template : String
  bytes : String
  deriving Repr, DecidableEq

/-- The `for` loop of `Named` (`template.go:64-71`): running best score
(initially `math.MaxInt`) and best entry, improved only on strictly
smaller distance. -/
def namedLoop (dist : String → Nat) : List NamedEntry → Nat → Option NamedEntry → Nat × Option NamedEntry
  | [], score, best => (score, best)
  | t :: rest, score, best =>
    if dist t.template < score then namedLoop dist rest (dist t.template) (some t)
    else namedLoop dist rest score best

/-- Model of `Named` (`template.go:58-78`) over a given catalog (the
embedded catalog is data outside the modelled sources): pick the entry at
minimal Levenshtein distance from `s`, accepting only a minimum strictly
below 100. The `none` arm of the final match is unreachable because the
initial score exceeds 100. -/
def Named (catalog : List NamedEntry) (s : String) : Except String NamedEntry :=
  let r := namedLoop (fun t => levenshtein s t) catalog (2 ^ 63 - 1) none
  if r.1 < 100 then
    match r.2 with
    | some t => .ok t
    | none => .error "no matching template found"
  else .error "no matching template found"

/-- The binding map passed to one template execution. `text/template` runs
with `missingkey=zero`, so a key the caller did not set reads as its zero
value; the model therefore uses one record whose unset fields are zero. -/
structure Bindings where
  system : String
  prompt : String
  response : String
  messages : List Message
  tools : List Tool
  deriving Repr

/-- One call into the external template evaluator: the root node sequence
executed and the bindings supplied. -/
structure ExecCall where
  tree : List Node
  binds : Bindings
  deriving Repr

/-- The external evaluator: bytes written so far plus an optional error
(on error the bytes are what reached its writer before the failure). -/
def Exec : Type :=
  List Node → Bindings → String × Option String

/-- The per-turn loop of the legacy path (`template.go:216-237`): walk the
collated messages tracking `prompt`/`response` buffers; a "user" message
sets `prompt`, any other role sets `response`; when the message is not the
last and both buffers are non-empty, execute the full tree into the
accumulating buffer and clear both. Returns
(calls made, buffer, prompt, response, error). -/
def legacyLoop (exec : Exec) (tree : List Node) :
    List Message → String → String → List ExecCall → String →
    List ExecCall × String × String × String × Option String
  | [], prompt, response, calls, buf => (calls, buf, prompt, response, none)
  | m :: rest, prompt, response, calls, buf =>
    let prompt := if m.role == "user" then m.content else prompt
    let response := if m.role == "user" then response else m.content
    if rest ≠ [] ∧ prompt ≠ "" ∧ response ≠ "" then
      let b : Bindings := ⟨"", prompt, response, [], []⟩
      let r := exec tree b
      match r.2 with
      | some e => (calls ++ [⟨tree, b⟩], buf ++ r.1, prompt, response, some e)
      | none => legacyLoop exec tree rest "" "" (calls ++ [⟨tree, b⟩]) (buf ++ r.1)
    else
      legacyLoop exec tree rest prompt response calls buf

/-- The truncation of the legacy path (`template.go:239-248`):
`slices.DeleteFunc` over a copy of the root sequence with a latching `cut`
flag set at the first node whose identifier list contains the exact string
"Response". -/
def cutResponse (nodes : List Node) : List Node :=
  (nodes.foldl
    (fun (acc : List Node × Bool) n =>
      let cut := acc.2 || (Identifiers n).contains "Response"
      (if cut then acc.1 else acc.1 ++ [n], cut))
    ([], false)).1

/-- Model of `(*Template).Execute` (`template.go:206-259`). Returns the
trace of evaluator calls, the bytes that reached the caller's writer `w`,
and the error result. The modern path (variable set contains "messages")
hands `w` to the evaluator directly, so its partial output stays written
on failure; the legacy path renders into an internal buffer that is copied
to `w` only after every render succeeded. -/
def ExecuteM (exec : Exec) (t : Template) (msgs : List Message) (tools : List Tool) :
    List ExecCall × String × Option String :=
  let c := collate msgs
  if (VarsOf t.tmpl).contains "messages" then
    let b : Bindings := ⟨c.1, "", "", c.2, tools⟩
    let r := exec t.tmpl.main b
    ([⟨t.tmpl.main, b⟩], r.1, r.2)
  else
    let lr := legacyLoop exec t.tmpl.main c.2 "" "" [] ""
    match lr.2.2.2.2 with
    | some e => (lr.1, "", some e)
    | none =>
      let tree := cutResponse t.tmpl.main
      let b : Bindings := ⟨c.1, lr.2.2.1, "", [], []⟩
      let r := exec tree b
      match r.2 with
      | some e => (lr.1 ++ [⟨tree, b⟩], "", some e)
      | none => (lr.1 ++ [⟨tree, b⟩], lr.2.1 ++ r.1, none)

/-- Errors surfaced by the staging filesystem model. -/
inductive FsErr where
  | invalid
  | notExist
  | insecurePath
  | statErr
  deriving Repr, DecidableEq

/-- A zip archive entry: name and uncompressed size. -/
structure ZipEntry where
  name : String
  size : Nat
  deriving Repr, DecidableEq

/-- Split a character list on '/' (the element decomposition used by both
`fs.ValidPath` and `filepath.IsLocal`); always returns a non-empty list of
elements, with empty elements for leading, trailing or doubled slashes. -/
def splitSlash : List Char → List (List Char)
  | [] => [[]]
  | c :: rest =>
    if c = '/' then [] :: splitSlash rest
    else
      match splitSlash rest with
      | e :: es => (c :: e) :: es
      | [] => [[c]]

/-- Model of `io/fs.ValidPath`: "." or non-empty slash-separated elements,
none of which is empty, "." or "..". -/
def validPath (s : String) : Bool :=
  s.data = ['.'] || (splitSlash s.data).all (fun e => !(e = [] || e = ['.'] || e = ['.', '.']))

/-- The cleaning walk of `filepath.IsLocal` (Unix rules): skip empty and
"." elements; each ".." must cancel a previously accumulated element, or
the path escapes the starting directory. -/
def localWalk : List (List Char) → Nat → Bool
  | [], _ => true
  | e :: rest, depth =>
    if e = [] || e = ['.'] then localWalk rest depth
    else if e = ['.', '.'] then
      match depth with
      | 0 => false
      | d + 1 => localWalk rest d
    else localWalk rest (depth + 1)

/-- Model of `path/filepath.IsLocal` on Unix: non-empty, not absolute, and
lexically confined to the subtree of the starting directory. -/
def isLocal (s : String) : Bool :=
  !(s.data = []) && !(s.data.head? = some '/') && localWalk (splitSlash s.data) 0

/-- What `(*tempzipfs).Open` hands back: the zip layer's own file handle,
or a handle onto the staged local copy. -/
inductive OpenResult where
  | zipFile (e : ZipEntry)
  | stagedFile (path : String)
  deriving Repr, DecidableEq

/-- Model of `(*zip.Reader).Open`: per the `fs.FS` contract it rejects any
name failing `fs.ValidPath` with `ErrInvalid`, and otherwise serves the
archive entry of that name when present. -/
def zipOpen (entries : List ZipEntry) (name : String) : Except FsErr ZipEntry :=
  if !validPath name then .error .invalid
  else
    match entries.find? (fun e => e.name == name) with
    | some e => .ok e
    | none => .error .notExist

/-- Model of `(*tempzipfs).Open` (`convert/fs.go:21-54`). Entries smaller
than 32 MiB are returned straight from the zip layer; larger ones are
staged to a local file (the `os` interaction is abstracted to the staged
path, which is all the claims concern) after a `filepath.IsLocal` check
that fails with `zip.ErrInsecurePath`. -/
def tempzipfsOpen (entries : List ZipEntry) (p name : String) : Except FsErr OpenResult :=
  match zipOpen entries name with
  | .error e => .error e
  | .ok e =>
    if e.size < 32 * 2 ^ 20 then .ok (.zipFile e)
    else if !isLocal name then .error .insecurePath
    else .ok (.stagedFile (p ++ "/" ++ name))

/-! Specification-side definitions, used to state claims about `collate`
against the spec's own wording, and concrete fixtures for the theorems. -/

/-- The contents of the system-role messages, in order. -/
def sysContents (msgs : List Message) : List String :=
  (msgs.filter (fun m => m.role == "system")).map (fun m => m.content)

/-- The non-system messages, in order. -/
def nonSys (msgs : List Message) : List Message :=
  msgs.filter (fun m => !(m.role == "system"))

/-- Per the spec's wording: concatenation separated by one blank line
between successive items. -/
def sepJoin : List String → String
  | [] => ""
  | [c] => c
  | c :: c2 :: rest => c ++ "\n\n" ++ sepJoin (c2 :: rest)

/-- Concatenation with a blank-line separator before every item. -/
def tailJoin : List String → String
  | [] => ""
  | c :: rest => "\n\n" ++ c ++ tailJoin rest

/-- Image annotation applied across a message sequence, threading the
shared counter. -/
def annotateAll : Nat → List Message → List Message
  | _, [] => []
  | n, m :: rest =>
    let an := annotateImages n m.content m.images
    { m with content := an.1 } :: annotateAll an.2 rest

/-- Left fold of the append-or-merge step. -/
def stepFold : List Message → List Message → List Message
  | acc, [] => acc
  | acc, m :: rest => stepFold (appendMerge acc m) rest

/-- Merge the pending message `m` with every immediately following message
of equal role (appending contents after two newlines), then continue. -/
def mergeInto (m : Message) : List Message → List Message
  | [] => [m]
  | m2 :: rest =>
    if m.role == m2.role then
      mergeInto { m with content := m.content ++ "\n\n" ++ m2.content } rest
    else m :: mergeInto m2 rest

/-- Per the spec's wording: merge each message into the immediately
preceding one exactly when their roles are equal, appending the later
content after two newlines. -/
def mergeRuns : List Message → List Message
  | [] => []
  | m :: rest => mergeInto m rest

/-- Total number of images attached to non-system messages. -/
def imgCount : List Message → Nat
  | [] => 0
  | m :: rest => (if m.role == "system" then 0 else m.images.length) + imgCount rest

/-- An evaluator that writes nothing and never fails. -/
def zeroExec : Exec :=
  fun _ _ => ("", none)

/-- An evaluator that writes partial output and then fails. -/
def failExec : Exec :=
  fun _ _ => ("partial", some "boom")

/-- A compiled form of a template whose only action references the field
`.Response` (so its variable set is exactly \x7b"response"\x7d). -/
def respTmpl : Template :=
  ⟨⟨[responseNode], []⟩, "\x7b\x7b .Response \x7d\x7d"⟩

/-- A compiled form of a template referencing the lowercase field
`.response`. -/
def respLowerNode : Node :=
  .actionNode (.pipeNode [[.fieldNode ["response"]]])

/-- Template wrapper around `respLowerNode`. -/
def respLowerTmpl : Template :=
  ⟨⟨[respLowerNode], []⟩, "\x7b\x7b .response \x7d\x7d"⟩

/-- A compiled form of a legacy template whose only action references
`.Prompt`. -/
def promptTmpl : Template :=
  ⟨⟨[.actionNode (.pipeNode [[.fieldNode ["Prompt"]]])], []⟩, "\x7b\x7b .Prompt \x7d\x7d"⟩

/-- A compiled form of a modern template referencing `.Messages`. -/
def msgsTmpl : Template :=
  ⟨⟨[.actionNode (.pipeNode [[.fieldNode ["Messages"]]])], []⟩, "\x7b\x7b .Messages \x7d\x7d"⟩

/-- A compiler stub returning an empty tree for any source. -/
def okCompile : String → Except String ParsedTmpl :=
  fun _ => .ok ⟨[], []⟩

/-- The two-message fixture for the image-marker claims: a user message
with two images and no placeholder, then an assistant message with one
image. -/
def ex4 : List Message :=
  [⟨"user", "hello", ["i1", "i2"], []⟩, ⟨"assistant", "world", ["i3"], []⟩]

/-! Helper lemmas. -/

theorem str_eq_empty_of_data {s : String} (h : s.data = []) : s = "" :=
  String.ext h

theorem str_append_ne_empty_left {a : String} (b : String) (h : a ≠ "") : a ++ b ≠ "" := by
  intro hc
  have hd := congrArg String.data hc
  rw [String.data_append] at hd
  rcases List.append_eq_nil.mp hd with ⟨h1, _⟩
  exact h (str_eq_empty_of_data h1)

theorem joinStr_append : ∀ a b : List String, joinStr (a ++ b) = joinStr a ++ joinStr b := by
  intro a b
  induction a with
  | nil => simp [joinStr, String.empty_append]
  | cons x xs ih => simp [joinStr, ih, String.append_assoc]

/-! Claim C8: `Parse` round-trips the raw source. -/

/-- C8: for every source string accepted by `Parse`, reading the stored raw
form back with `String` returns the original source unchanged, including
when the synthetic trailing `{{ .Response }}` node was appended to the
compiled tree's root sequence. -/
theorem claim_c8 (compile : String → Except String ParsedTmpl) (s : String) (t : Template)
    (h : Parse compile s = .ok t) : t.String = s := by
  unfold Parse at h
  cases hc : compile s with
  | error e => rw [hc] at h; exact absurd h (by simp)
  | ok pt =>
    rw [hc] at h
    dsimp only at h
    split at h <;> (simp only [Except.ok.injEq] at h; rw [← h]; rfl)

/-- Witness for C8: a source compiled with a stub compiler whose variable
set lacks both "messages" and "response" (so the synthetic node is
appended) still reads back verbatim. -/
theorem claim_c8_witness : Template.String ⟨⟨[responseNode], []⟩, "hi"⟩ = "hi" :=
  claim_c8 okCompile "hi" ⟨⟨[responseNode], []⟩, "hi"⟩ rfl

/-! Claim C9: `collate` annotates a copy, not the caller's messages. -/

/-- C9 counterexample: a user message with one image. The positional marker
appears only in the collated output; the caller-supplied message still has
its original content, so `collate` does not rewrite the content field of
the caller's slice. -/
theorem claim_c9_counterexample :
    (collate [⟨"user", "hi", ["i1"], []⟩]).2.map (fun m => m.content) = ["[img-0] hi"] ∧
    collateCallerAfter [⟨"user", "hi", ["i1"], []⟩] = [⟨"user", "hi", ["i1"], []⟩] ∧
    Message.content ⟨"user", "hi", ["i1"], []⟩ ≠ "[img-0] hi" :=
  ⟨by decide, rfl, by decide⟩

/-- C9 amended: `collate` leaves the caller-supplied messages unchanged
(the loop reads each element into a copy and never stores back); the
image-tag annotation appears in the collated output's content instead. -/
theorem claim_c9_amended :
    (∀ msgs : List Message, collateCallerAfter msgs = msgs) ∧
    (collate [⟨"user", "hi", ["i1"], []⟩]).2.map (fun m => m.content) = ["[img-0] hi"] :=
  ⟨fun _ => rfl, by decide⟩

/-! Claim C4: the shared image counter and the marker layout. -/

theorem annotateImages_count : ∀ (imgs : List String) (n : Nat) (c : String),
    (annotateImages n c imgs).2 = n + imgs.length := by
  intro imgs
  induction imgs with
  | nil => intro n c; simp [annotateImages]
  | cons i rest ih =>
    intro n c
    simp only [annotateImages, ih, List.length_cons]
    omega

theorem collateLoop_count : ∀ (msgs : List Message) (sys : String) (acc : List Message) (n : Nat),
    (collateLoop msgs sys acc n).2.2 = n + imgCount msgs := by
  intro msgs
  induction msgs with
  | nil => intro sys acc n; simp [collateLoop, imgCount]
  | cons m rest ih =>
    intro sys acc n
    by_cases h : (m.role == "system") = true
    · simp only [collateLoop, if_pos h, ih, imgCount, if_pos h]
      omega
    · rw [Bool.not_eq_true] at h
      simp only [collateLoop, h, Bool.false_eq_true, if_false, ih, imgCount,
        annotateImages_count, imgCount]
      omega

/-- C4 amended: image markers do use one strictly increasing counter shared
across the whole conversation and never reset between messages (the counter
after a message advances by exactly its image count, threaded through the
whole loop); but each marker for a message without an `[img]` placeholder
is prepended, so a message with two images and no placeholder yields
content beginning `[img-1] [img-0] `, and a later single-image message
receives `[img-2]`. -/
theorem claim_c4_amended :
    (∀ (n : Nat) (c : String) (imgs : List String),
      (annotateImages n c imgs).2 = n + imgs.length) ∧
    (∀ (msgs : List Message) (sys : String) (acc : List Message) (n : Nat),
      (collateLoop msgs sys acc n).2.2 = n + imgCount msgs) ∧
    (collate ex4).2.map (fun m => m.content) = ["[img-1] [img-0] hello", "[img-2] world"] :=
  ⟨fun n c imgs => annotateImages_count imgs n c, collateLoop_count, by decide⟩

/-- C4 counterexample: with two images and no placeholder the first
message's content starts with `[img-1]`, not `[img-0]`, and the later
single-image message receives `[img-2]`, not `[img-1]`. -/
theorem claim_c4_counterexample :
    (collate ex4).2.map (fun m => m.content) = ["[img-1] [img-0] hello", "[img-2] world"] ∧
    "[img-1] [img-0] hello".data.take 7 ≠ "[img-0]".data ∧
    "[img-2] world" ≠ "[img-1] world" :=
  ⟨by decide, by decide, by decide⟩

/-! Claim C3: locality checking in the staging filesystem. -/

theorem localWalk_proper : ∀ (es : List (List Char)) (d : Nat),
    es.all (fun e => !(e = [] || e = ['.'] || e = ['.', '.'])) = true →
    localWalk es d = true := by
  intro es
  induction es with
  | nil => intro d _; rfl
  | cons e rest ih =>
    intro d h
    rw [List.all_cons, Bool.and_eq_true] at h
    obtain ⟨he, hrest⟩ := h
    simp only [Bool.not_eq_true', Bool.or_eq_false_iff, decide_eq_false_iff_not] at he
    obtain ⟨⟨h1, h2⟩, h3⟩ := he
    simp only [localWalk, h1, h2, h3]
    simp only [decide_False, Bool.or_self, Bool.false_eq_true, if_false]
    exact ih (d + 1) hrest

theorem validPath_imp_isLocal (s : String) (h : validPath s = true) : isLocal s = true := by
  unfold validPath at h
  rw [Bool.or_eq_true] at h
  rcases h with h | h
  · have hd : s.data = ['.'] := by simpa using h
    simp [isLocal, hd, localWalk, splitSlash]
  · have hd : s.data ≠ [] := by
      intro hc
      rw [hc] at h
      simp [splitSlash] at h
    have hh : ¬(s.data.head? = some '/') := by
      intro hc
      cases hsd : s.data with
      | nil => exact hd hsd
      | cons c r =>
        rw [hsd] at hc
        simp at hc
        rw [hsd, hc] at h
        simp [splitSlash] at h
    simp only [isLocal, Bool.and_eq_true]
    refine ⟨⟨by simpa using hd, by simpa using hh⟩, localWalk_proper _ 0 h⟩

/-- C3 counterexample: the non-local name "../bad" names an entry of size 0
(below the 32 MiB threshold); `Open` fails, but with the zip layer's
invalid-path error, not `InsecurePath`. -/
theorem claim_c3_counterexample :
    isLocal "../bad" = false ∧
    tempzipfsOpen [⟨"../bad", 0⟩] "tmp" "../bad" = .error .invalid ∧
    (Except.error FsErr.invalid : Except FsErr OpenResult) ≠ .error .insecurePath :=
  ⟨by decide, rfl, by simp⟩

/-- C3 amended: every non-local name given to `Open` fails regardless of
the entry's size, but with the zip layer's invalid-path error rather than
`InsecurePath`; the explicit `InsecurePath` check runs only on the staging
branch for entries of at least 32 MiB, and an entry below 32 MiB is served
straight from the zip reader with no locality check. -/
theorem claim_c3_amended :
    (∀ (entries : List ZipEntry) (p name : String),
      isLocal name = false → tempzipfsOpen entries p name = .error .invalid) ∧
    (∀ (entries : List ZipEntry) (p name : String) (e : ZipEntry),
      zipOpen entries name = .ok e → e.size < 32 * 2 ^ 20 →
      tempzipfsOpen entries p name = .ok (.zipFile e)) := by
  constructor
  · intro entries p name h
    have hv : validPath name = false := by
      cases hv : validPath name with
      | false => rfl
      | true => rw [validPath_imp_isLocal name hv] at h; exact absurd h (by simp)
    unfold tempzipfsOpen zipOpen
    rw [hv]
    rfl
  · intro entries p name e hz hs
    unfold tempzipfsOpen
    rw [hz]
    dsimp only
    rw [if_pos hs]

/-- Witness for C3: the non-local name "../bad" on an empty archive, and a
small entry served from the zip layer. -/
theorem claim_c3_witness :
    tempzipfsOpen [] "t" "../bad" = .error .invalid ∧
    tempzipfsOpen [⟨"good", 7⟩] "t" "good" = .ok (.zipFile ⟨"good", 7⟩) :=
  ⟨claim_c3_amended.1 [] "t" "../bad" (by decide),
   claim_c3_amended.2 [⟨"good", 7⟩] "t" "good" ⟨"good", 7⟩ rfl (by norm_num)⟩

/-! Claim C7: catalog resolution. -/

theorem namedLoop_noImprove (dist : String → Nat) :
    ∀ (cat : List NamedEntry) (sc : Nat) (tm : Option NamedEntry),
    (∀ t ∈ cat, ¬(dist t.template < sc)) → namedLoop dist cat sc tm = (sc, tm) := by
  intro cat
  induction cat with
  | nil => intro sc tm _; rfl
  | cons t rest ih =>
    intro sc tm h
    simp only [namedLoop]
    rw [if_neg (h t (by simp))]
    exact ih sc tm (fun t' ht' => h t' (by simp [ht']))

theorem namedLoop_min (dist : String → Nat) :
    ∀ (cat : List NamedEntry) (sc : Nat) (tm : Option NamedEntry) (m : Nat) (e : NamedEntry),
    m < sc → (∀ t ∈ cat, m ≤ dist t.template) →
    cat.find? (fun t => dist t.template == m) = some e →
    namedLoop dist cat sc tm = (m, some e) := by
  intro cat
  induction cat with
  | nil => intro sc tm m e _ _ hfind; simp [List.find?] at hfind
  | cons t rest ih =>
    intro sc tm m e hm hmin hfind
    rw [List.find?_cons] at hfind
    cases hdm : (dist t.template == m) with
    | true =>
      have hdm' : dist t.template = m := by simpa using hdm
      rw [hdm] at hfind
      have het : t = e := by simpa using hfind
      subst het
      simp only [namedLoop]
      rw [hdm', if_pos hm]
      exact namedLoop_noImprove dist rest m (some t)
        (fun t' ht' => not_lt.mpr (hmin t' (List.mem_cons_of_mem _ ht')))
    | false =>
      have hne : dist t.template ≠ m := by simpa using hdm
      rw [hdm] at hfind
      have hmt : m < dist t.template := lt_of_le_of_ne (hmin t (by simp)) (Ne.symm hne)
      simp only [namedLoop]
      by_cases hsc : dist t.template < sc
      · rw [if_pos hsc]
        exact ih (dist t.template) (some t) m e hmt
          (fun t' ht' => hmin t' (List.mem_cons_of_mem _ ht')) hfind
      · rw [if_neg hsc]
        exact ih sc tm m e hm (fun t' ht' => hmin t' (List.mem_cons_of_mem _ ht')) hfind

theorem namedLoop_ge (dist : String → Nat) :
    ∀ (cat : List NamedEntry) (sc : Nat) (tm : Option NamedEntry),
    100 ≤ sc → (∀ t ∈ cat, 100 ≤ dist t.template) →
    100 ≤ (namedLoop dist cat sc tm).1 := by
  intro cat
  induction cat with
  | nil => intro sc tm h _; exact h
  | cons t rest ih =>
    intro sc tm h hall
    simp only [namedLoop]
    by_cases hsc : dist t.template < sc
    · rw [if_pos hsc]
      exact ih _ _ (hall t (by simp)) (fun t' ht' => hall t' (by simp [ht']))
    · rw [if_neg hsc]
      exact ih _ _ h (fun t' ht' => hall t' (by simp [ht']))

theorem levList_self : ∀ l : List Char, levList l l = 0 := by
  intro l
  induction l with
  | nil => simp [levList]
  | cons x xs ih => simp [levList, ih]

/-- C7: `Named` computes the Levenshtein distance between the candidate and
every catalog entry's canonical template string, returns the entry
achieving the minimum — ties broken in favour of the first entry in
catalog order — when that minimum is strictly below 100, and signals the
not-found error when every distance is 100 or greater. -/
theorem claim_c7 :
    (∀ (cat : List NamedEntry) (s : String) (m : Nat) (e : NamedEntry),
      m < 100 → (∀ t ∈ cat, m ≤ levenshtein s t.template) →
      cat.find? (fun t => levenshtein s t.template == m) = some e →
      Named cat s = .ok e) ∧
    (∀ (cat : List NamedEntry) (s : String),
      (∀ t ∈ cat, 100 ≤ levenshtein s t.template) →
      Named cat s = .error "no matching template found") := by
  constructor
  · intro cat s m e hm hmin hfind
    unfold Named
    dsimp only
    rw [namedLoop_min (fun t => levenshtein s t) cat (2 ^ 63 - 1) none m e
      (lt_of_lt_of_le hm (by norm_num)) hmin hfind]
    dsimp only
    rw [if_pos hm]
  · intro cat s hge
    unfold Named
    dsimp only
    rw [if_neg (not_lt.mpr (namedLoop_ge (fun t => levenshtein s t) cat (2 ^ 63 - 1) none
      (by norm_num) hge))]

/-- Witness for C7: a one-entry catalog whose canonical string equals the
candidate resolves to that entry at distance 0. -/
theorem claim_c7_witness : Named [⟨"a", "abc", "raw"⟩] "abc" = .ok ⟨"a", "abc", "raw"⟩ :=
  claim_c7.1 [⟨"a", "abc", "raw"⟩] "abc" 0 ⟨"a", "abc", "raw"⟩ (by norm_num)
    (fun t _ => Nat.zero_le _)
    (by simp [List.find?_cons, levenshtein, levList_self])

/-! Claim C6: system extraction and same-role merging in `collate`. -/

theorem stepFold_concat : ∀ (l : List Message) (acc : List Message) (a : Message),
    stepFold (acc ++ [a]) l = acc ++ mergeInto a l := by
  intro l
  induction l with
  | nil => intro acc a; simp [stepFold, mergeInto]
  | cons x xs ih =>
    intro acc a
    simp only [stepFold, appendMerge, List.getLast?_concat, List.dropLast_concat]
    by_cases hrole : (a.role == x.role) = true
    · rw [if_pos hrole, ih]
      rw [mergeInto]
      rw [if_pos hrole]
    · rw [if_neg hrole, ih (acc ++ [a]) x]
      rw [mergeInto]
      rw [if_neg hrole]
      simp

theorem stepFold_nil : ∀ l : List Message, stepFold [] l = mergeRuns l := by
  intro l
  cases l with
  | nil => rfl
  | cons x xs =>
    have h : stepFold [] (x :: xs) = stepFold ([] ++ [x]) xs := rfl
    rw [h, stepFold_concat, List.nil_append, mergeRuns]

theorem collateLoop_collated :
    ∀ (msgs : List Message) (sys : String) (acc : List Message) (n : Nat),
    (collateLoop msgs sys acc n).2.1 = stepFold acc (annotateAll n (nonSys msgs)) := by
  intro msgs
  induction msgs with
  | nil => intro sys acc n; simp [collateLoop, nonSys, annotateAll, stepFold]
  | cons m rest ih =>
    intro sys acc n
    by_cases h : (m.role == "system") = true
    · simp only [collateLoop, if_pos h, nonSys, List.filter_cons, h, Bool.not_true]
      exact ih _ acc n
    · rw [Bool.not_eq_true] at h
      simp only [collateLoop, h, Bool.false_eq_true, if_false, nonSys, List.filter_cons,
        Bool.not_false]
      rw [← nonSys]
      simp only [annotateAll, stepFold]
      exact ih _ _ _

theorem sysContents_cons_sys {m : Message} {rest : List Message}
    (h : (m.role == "system") = true) :
    sysContents (m :: rest) = m.content :: sysContents rest := by
  simp [sysContents, List.filter_cons, h]

theorem sysContents_cons_non {m : Message} {rest : List Message}
    (h : (m.role == "system") = false) :
    sysContents (m :: rest) = sysContents rest := by
  simp [sysContents, List.filter_cons, h]

theorem collateLoop_sys_ne :
    ∀ (msgs : List Message) (sys : String) (acc : List Message) (n : Nat), sys ≠ "" →
    (collateLoop msgs sys acc n).1 = sys ++ tailJoin (sysContents msgs) := by
  intro msgs
  induction msgs with
  | nil =>
    intro sys acc n _
    simp [collateLoop, sysContents, tailJoin, String.append_empty]
  | cons m rest ih =>
    intro sys acc n hne
    by_cases h : (m.role == "system") = true
    · simp only [collateLoop, if_pos h, if_pos hne]
      have hne' : (sys ++ "\n\n") ++ m.content ≠ "" :=
        str_append_ne_empty_left _ (str_append_ne_empty_left _ hne)
      rw [ih _ acc n hne']
      rw [sysContents_cons_sys h]
      simp [tailJoin, String.append_assoc]
    · rw [Bool.not_eq_true] at h
      simp only [collateLoop, h, Bool.false_eq_true, if_false]
      rw [ih _ _ _ hne]
      rw [sysContents_cons_non h]

theorem sepJoin_cons : ∀ (c : String) (l : List String), sepJoin (c :: l) = c ++ tailJoin l := by
  intro c l
  induction l generalizing c with
  | nil => simp [sepJoin, tailJoin, String.append_empty]
  | cons d rest ih =>
    simp only [sepJoin, tailJoin, ih d]
    simp [String.append_assoc]

theorem collateLoop_sys_empty :
    ∀ (msgs : List Message) (acc : List Message) (n : Nat),
    (∀ m ∈ msgs, m.role = "system" → m.content ≠ "") →
    (collateLoop msgs "" acc n).1 = sepJoin (sysContents msgs) := by
  intro msgs
  induction msgs with
  | nil => intro acc n _; rfl
  | cons m rest ih =>
    intro acc n hcon
    by_cases h : (m.role == "system") = true
    · have hrole : m.role = "system" := by simpa using h
      have hc : m.content ≠ "" := hcon m (by simp) hrole
      simp only [collateLoop, if_pos h]
      rw [if_neg (fun hcontra => hcontra rfl)]
      rw [String.empty_append]
      rw [collateLoop_sys_ne rest m.content acc n hc]
      rw [sysContents_cons_sys h, sepJoin_cons]
    · rw [Bool.not_eq_true] at h
      simp only [collateLoop, h, Bool.false_eq_true, if_false]
      rw [ih _ _ (fun m' hm' => hcon m' (by simp [hm']))]
      rw [sysContents_cons_non h]

/-- C6 amended: `collate` removes every system message and concatenates
their contents into the returned system text, inserting the blank-line
separator only when the accumulated system text is already non-empty (so
for system messages with non-empty contents that is exactly blank-line
separation); and it merges each retained message into the immediately
preceding retained one exactly when their roles are equal, appending the
current (image-annotated) content after two newlines, preserving the
original order. -/
theorem claim_c6_amended (msgs : List Message)
    (h : ∀ m ∈ msgs, m.role = "system" → m.content ≠ "") :
    collate msgs = (sepJoin (sysContents msgs), mergeRuns (annotateAll 0 (nonSys msgs))) := by
  unfold collate
  dsimp only
  rw [Prod.ext_iff]
  constructor
  · exact collateLoop_sys_empty msgs [] 0 h
  · rw [collateLoop_collated msgs "" [] 0, stepFold_nil]

/-- C6 counterexample: two successive system messages whose first content
is empty. The code emits "B" while blank-line separation of the two
contents would give a text beginning with a blank line. -/
theorem claim_c6_counterexample :
    ¬((collate [⟨"system", "", [], []⟩, ⟨"system", "B", [], []⟩]).1 =
      sepJoin (sysContents [⟨"system", "", [], []⟩, ⟨"system", "B", [], []⟩])) := by
  decide

/-- Witness for C6: the spec's own example conversation. -/
theorem claim_c6_witness :
    collate [⟨"system", "A", [], []⟩, ⟨"system", "B", [], []⟩, ⟨"user", "Q1", [], []⟩,
      ⟨"assistant", "R1", [], []⟩, ⟨"user", "Q2", [], []⟩] =
    ("A\n\nB", [⟨"user", "Q1", [], []⟩, ⟨"assistant", "R1", [], []⟩, ⟨"user", "Q2", [], []⟩]) := by
  rw [claim_c6_amended _ (by decide)]
  decide

/-! The legacy-path truncation and loop lemmas, shared by the claims about
`Execute`. -/

theorem cutFold_true : ∀ (ns : List Node) (acc : List Node),
    (ns.foldl (fun (acc : List Node × Bool) n =>
      let cut := acc.2 || (Identifiers n).contains "Response"
      (if cut then acc.1 else acc.1 ++ [n], cut)) (acc, true)).1 = acc := by
  intro ns
  induction ns with
  | nil => intro acc; rfl
  | cons n rest ih =>
    intro acc
    simp only [List.foldl_cons, Bool.true_or, if_pos]
    exact ih acc

theorem cutFold_false : ∀ (ns : List Node) (acc : List Node),
    (ns.foldl (fun (acc : List Node × Bool) n =>
      let cut := acc.2 || (Identifiers n).contains "Response"
      (if cut then acc.1 else acc.1 ++ [n], cut)) (acc, false)).1 =
    acc ++ ns.takeWhile (fun n => !((Identifiers n).contains "Response")) := by
  intro ns
  induction ns with
  | nil => intro acc; simp [List.takeWhile]
  | cons n rest ih =>
    intro acc
    cases hc : (Identifiers n).contains "Response" with
    | true =>
      simp only [List.foldl_cons, hc, Bool.false_or, if_pos, List.takeWhile_cons, Bool.not_true]
      rw [cutFold_true rest acc]
      simp
    | false =>
      simp only [List.foldl_cons, hc, Bool.false_or, Bool.false_eq_true, if_false,
        List.takeWhile_cons, Bool.not_false]
      rw [ih (acc ++ [n])]
      simp

theorem cutResponse_eq_takeWhile (ns : List Node) :
    cutResponse ns = ns.takeWhile (fun n => !((Identifiers n).contains "Response")) := by
  unfold cutResponse
  rw [cutFold_false ns []]
  simp

theorem legacyLoop_calls_shape (exec : Exec) (tree : List Node) :
    ∀ (msgs : List Message) (p r : String) (calls : List ExecCall) (buf : String),
    ∀ c ∈ (legacyLoop exec tree msgs p r calls buf).1, c ∈ calls ∨
      (c.tree = tree ∧ c.binds.system = "" ∧ c.binds.prompt ≠ "" ∧ c.binds.response ≠ "" ∧
        c.binds.messages = [] ∧ c.binds.tools = []) := by
  intro msgs
  induction msgs with
  | nil => intro p r calls buf c hc; exact Or.inl hc
  | cons m rest ih =>
    intro p r calls buf c
    simp only [legacyLoop]
    by_cases hcond : (rest ≠ [] ∧ (if m.role == "user" then m.content else p) ≠ "" ∧
        (if m.role == "user" then r else m.content) ≠ "")
    · rw [if_pos hcond]
      obtain ⟨_, hp, hr⟩ := hcond
      cases h2 : (exec tree ⟨"", if m.role == "user" then m.content else p,
          if m.role == "user" then r else m.content, [], []⟩).2 with
      | some e =>
        intro hc
        rcases List.mem_append.mp hc with h | h
        · exact Or.inl h
        · right
          rw [List.mem_singleton.mp h]
          exact ⟨rfl, rfl, hp, hr, rfl, rfl⟩
      | none =>
        intro hc
        rcases ih _ _ _ _ c hc with h | h
        · rcases List.mem_append.mp h with h' | h'
          · exact Or.inl h'
          · right
            rw [List.mem_singleton.mp h']
            exact ⟨rfl, rfl, hp, hr, rfl, rfl⟩
        · exact Or.inr h
    · rw [if_neg hcond]
      exact ih _ _ _ _ c

theorem legacyLoop_length (exec : Exec) (tree : List Node) :
    ∀ (msgs : List Message) (p r : String) (calls : List ExecCall) (buf : String),
    (legacyLoop exec tree msgs p r calls buf).1.length ≤ calls.length + (msgs.length - 1) := by
  intro msgs
  induction msgs with
  | nil => intro p r calls buf; simp [legacyLoop]
  | cons m rest ih =>
    intro p r calls buf
    simp only [legacyLoop]
    by_cases hcond : (rest ≠ [] ∧ (if m.role == "user" then m.content else p) ≠ "" ∧
        (if m.role == "user" then r else m.content) ≠ "")
    · rw [if_pos hcond]
      have hrest : rest ≠ [] := hcond.1
      have hlen : 1 ≤ rest.length := by
        cases rest with
        | nil => exact absurd rfl hrest
        | cons _ _ => simp
      cases h2 : (exec tree ⟨"", if m.role == "user" then m.content else p,
          if m.role == "user" then r else m.content, [], []⟩).2 with
      | some e =>
        simp only [List.length_append, List.length_singleton, List.length_cons, List.length_nil]
        omega
      | none =>
        have h := ih "" "" (calls ++ [⟨tree, ⟨"", if m.role == "user" then m.content else p,
          if m.role == "user" then r else m.content, [], []⟩⟩])
          (buf ++ (exec tree ⟨"", if m.role == "user" then m.content else p,
            if m.role == "user" then r else m.content, [], []⟩).1)
        simp only [List.length_append, List.length_singleton, List.length_cons,
          List.length_nil] at h ⊢
        omega
    · rw [if_neg hcond]
      have h := ih (if m.role == "user" then m.content else p)
        (if m.role == "user" then r else m.content) calls buf
      simp only [List.length_cons] at h ⊢
      omega

theorem legacyLoop_allUser (exec : Exec) (tree : List Node) :
    ∀ (msgs : List Message) (p : String) (calls : List ExecCall) (buf : String),
    (∀ m ∈ msgs, m.role = "user") →
    (legacyLoop exec tree msgs p "" calls buf).1 = calls ∧
    (legacyLoop exec tree msgs p "" calls buf).2.2.2.2 = none := by
  intro msgs
  induction msgs with
  | nil => intro p calls buf _; exact ⟨rfl, rfl⟩
  | cons m rest ih =>
    intro p calls buf hall
    have hm : (m.role == "user") = true := by simp [hall m (by simp)]
    simp only [legacyLoop, hm, if_pos]
    rw [if_neg (by simp)]
    exact ih _ _ _ (fun m' hm' => hall m' (by simp [hm']))

theorem annotateAll_roles : ∀ (l : List Message) (n : Nat),
    (annotateAll n l).map (fun m => m.role) = l.map (fun m => m.role) := by
  intro l
  induction l with
  | nil => intro n; rfl
  | cons m rest ih => intro n; simp only [annotateAll, List.map_cons, ih]

theorem mergeInto_roles : ∀ (l : List Message) (m : Message),
    (∀ x ∈ l, x.role = "user") → m.role = "user" →
    ∀ y ∈ mergeInto m l, y.role = "user" := by
  intro l
  induction l with
  | nil =>
    intro m _ hm y hy
    rw [List.mem_singleton.mp hy]
    exact hm
  | cons m2 rest ih =>
    intro m hall hm y hy
    rw [mergeInto] at hy
    by_cases hrole : (m.role == m2.role) = true
    · rw [if_pos hrole] at hy
      exact ih { m with content := m.content ++ "\n\n" ++ m2.content }
        (fun x hx => hall x (by simp [hx])) hm y hy
    · rw [if_neg hrole] at hy
      rcases List.mem_cons.mp hy with h | h
      · rw [h]; exact hm
      · exact ih _ (fun x hx => hall x (by simp [hx])) (hall m2 (by simp)) y h

theorem collate_roles_user (msgs : List Message)
    (h : ∀ m ∈ msgs, m.role = "user" ∨ m.role = "system") :
    ∀ m' ∈ (collate msgs).2, m'.role = "user" := by
  have hc : (collate msgs).2 = mergeRuns (annotateAll 0 (nonSys msgs)) := by
    unfold collate
    dsimp only
    rw [collateLoop_collated msgs "" [] 0, stepFold_nil]
  rw [hc]
  have hns : ∀ m ∈ nonSys msgs, m.role = "user" := by
    intro m hm
    unfold nonSys at hm
    have hmem := List.mem_of_mem_filter hm
    have hpred := List.of_mem_filter hm
    rcases h m hmem with hu | hs
    · exact hu
    · exfalso
      simp [hs] at hpred
  have hann : ∀ m ∈ annotateAll 0 (nonSys msgs), m.role = "user" := by
    intro m hm
    have : m.role ∈ (annotateAll 0 (nonSys msgs)).map (fun m => m.role) :=
      List.mem_map.mpr ⟨m, hm, rfl⟩
    rw [annotateAll_roles] at this
    rcases List.mem_map.mp this with ⟨x, hx, hxr⟩
    rw [← hxr]
    exact hns x hx
  cases hl : annotateAll 0 (nonSys msgs) with
  | nil => intro m hm; simp [mergeRuns] at hm
  | cons x xs =>
    intro m hm
    rw [mergeRuns] at hm
    exact mergeInto_roles xs x (fun y hy => hann y (by rw [hl]; simp [hy]))
      (hann x (by rw [hl]; simp)) m hm

/-! Claim C5: the legacy per-turn loop. -/

/-- C5: in the legacy per-turn loop a full turn is rendered with bindings
whose System is empty and whose Prompt and Response are both non-empty
(never for the last message, so at most length-1 renders), and a
conversation with no non-user, non-system messages never renders a full
turn in this loop; the concrete conjunct shows a completed turn is indeed
rendered when the condition holds. -/
theorem claim_c5 (exec : Exec) (tree : List Node) :
    (∀ (coll : List Message), ∀ c ∈ (legacyLoop exec tree coll "" "" [] "").1,
      c.tree = tree ∧ c.binds.system = "" ∧ c.binds.prompt ≠ "" ∧ c.binds.response ≠ "") ∧
    (∀ coll : List Message,
      (legacyLoop exec tree coll "" "" [] "").1.length ≤ coll.length - 1) ∧
    (∀ msgs : List Message, (∀ m ∈ msgs, m.role = "user" ∨ m.role = "system") →
      (legacyLoop exec tree (collate msgs).2 "" "" [] "").1 = []) ∧
    legacyLoop zeroExec [] [⟨"user", "a", [], []⟩, ⟨"assistant", "b", [], []⟩,
      ⟨"user", "c", [], []⟩] "" "" [] "" =
      ([⟨[], ⟨"", "a", "b", [], []⟩⟩], "", "c", "", none) := by
  refine ⟨?_, ?_, ?_, rfl⟩
  · intro coll c hc
    rcases legacyLoop_calls_shape exec tree coll "" "" [] "" c hc with h | h
    · simp at h
    · exact ⟨h.1, h.2.1, h.2.2.1, h.2.2.2.1⟩
  · intro coll
    simpa using legacyLoop_length exec tree coll "" "" [] ""
  · intro msgs h
    exact (legacyLoop_allUser exec tree ((collate msgs).2) "" [] ""
      (collate_roles_user msgs h)).1

/-- Witness for C5: a single-user-message conversation renders no full
turn in the loop. -/
theorem claim_c5_witness :
    (legacyLoop zeroExec [] (collate [⟨"user", "x", [], []⟩]).2 "" "" [] "").1 = [] :=
  (claim_c5 zeroExec []).2.2.1 [⟨"user", "x", [], []⟩] (by decide)

/-! Unfolding lemmas for the two paths of `ExecuteM`. -/

theorem executeM_modern (exec : Exec) (t : Template) (msgs : List Message) (tools : List Tool)
    (h : (VarsOf t.tmpl).contains "messages" = true) :
    ExecuteM exec t msgs tools =
      ([⟨t.tmpl.main, ⟨(collate msgs).1, "", "", (collate msgs).2, tools⟩⟩],
        (exec t.tmpl.main ⟨(collate msgs).1, "", "", (collate msgs).2, tools⟩).1,
        (exec t.tmpl.main ⟨(collate msgs).1, "", "", (collate msgs).2, tools⟩).2) := by
  unfold ExecuteM
  rw [h]
  simp

theorem executeM_legacy_err (exec : Exec) (t : Template) (msgs : List Message)
    (tools : List Tool) (e : String)
    (h : (VarsOf t.tmpl).contains "messages" = false)
    (hl : (legacyLoop exec t.tmpl.main (collate msgs).2 "" "" [] "").2.2.2.2 = some e) :
    ExecuteM exec t msgs tools =
      ((legacyLoop exec t.tmpl.main (collate msgs).2 "" "" [] "").1, "", some e) := by
  unfold ExecuteM
  rw [h]
  simp only [Bool.false_eq_true, if_false]
  rw [hl]

theorem executeM_legacy_ok_err (exec : Exec) (t : Template) (msgs : List Message)
    (tools : List Tool) (e : String)
    (h : (VarsOf t.tmpl).contains "messages" = false)
    (hl : (legacyLoop exec t.tmpl.main (collate msgs).2 "" "" [] "").2.2.2.2 = none)
    (hfin : (exec (cutResponse t.tmpl.main)
      ⟨(collate msgs).1, (legacyLoop exec t.tmpl.main (collate msgs).2 "" "" [] "").2.2.1,
        "", [], []⟩).2 = some e) :
    ExecuteM exec t msgs tools =
      ((legacyLoop exec t.tmpl.main (collate msgs).2 "" "" [] "").1 ++
        [⟨cutResponse t.tmpl.main,
          ⟨(collate msgs).1, (legacyLoop exec t.tmpl.main (collate msgs).2 "" "" [] "").2.2.1,
            "", [], []⟩⟩], "", some e) := by
  unfold ExecuteM
  rw [h]
  simp only [Bool.false_eq_true, if_false]
  rw [hl]
  dsimp only
  rw [hfin]

theorem executeM_legacy_ok_ok (exec : Exec) (t : Template) (msgs : List Message)
    (tools : List Tool)
    (h : (VarsOf t.tmpl).contains "messages" = false)
    (hl : (legacyLoop exec t.tmpl.main (collate msgs).2 "" "" [] "").2.2.2.2 = none)
    (hfin : (exec (cutResponse t.tmpl.main)
      ⟨(collate msgs).1, (legacyLoop exec t.tmpl.main (collate msgs).2 "" "" [] "").2.2.1,
        "", [], []⟩).2 = none) :
    ExecuteM exec t msgs tools =
      ((legacyLoop exec t.tmpl.main (collate msgs).2 "" "" [] "").1 ++
        [⟨cutResponse t.tmpl.main,
          ⟨(collate msgs).1, (legacyLoop exec t.tmpl.main (collate msgs).2 "" "" [] "").2.2.1,
            "", [], []⟩⟩],
        (legacyLoop exec t.tmpl.main (collate msgs).2 "" "" [] "").2.1 ++
          (exec (cutResponse t.tmpl.main)
            ⟨(collate msgs).1, (legacyLoop exec t.tmpl.main (collate msgs).2 "" "" [] "").2.2.1,
              "", [], []⟩).1, none) := by
  unfold ExecuteM
  rw [h]
  simp only [Bool.false_eq_true, if_false]
  rw [hl]
  dsimp only
  rw [hfin]

/-! Claim C1: the legacy truncation cut. -/

/-- C1 counterexample: a legacy template whose single action references
the lowercase field `.response`. Its identifier set contains "response"
up to case, yet the final render executes the untruncated tree: the cut
matches only the exact string "Response". -/
theorem claim_c1_counterexample :
    (ExecuteM zeroExec respLowerTmpl [] []).1 =
      [⟨[respLowerNode], ⟨"", "", "", [], []⟩⟩] ∧
    (Identifiers respLowerNode).map lowerStr = ["response"] ∧
    ([respLowerNode] : List Node) ≠ [] :=
  ⟨rfl, by decide, by simp⟩

/-- C1 amended: after the per-turn loop (when it raised no error), Execute
runs exactly one more render, on the copy of the compiled tree truncated
from the first top-level node whose identifier list contains the exact,
case-sensitive string "Response" (a node referencing `.response` or
`.RESPONSE` does not trigger the cut) through the end of the root
sequence, with bindings {System: systemText, Prompt: lastPendingPrompt}. -/
theorem claim_c1_amended (exec : Exec) (t : Template) (msgs : List Message) (tools : List Tool)
    (hm : (VarsOf t.tmpl).contains "messages" = false)
    (hl : (legacyLoop exec t.tmpl.main (collate msgs).2 "" "" [] "").2.2.2.2 = none) :
    (ExecuteM exec t msgs tools).1 =
      (legacyLoop exec t.tmpl.main (collate msgs).2 "" "" [] "").1 ++
      [⟨t.tmpl.main.takeWhile (fun n => !((Identifiers n).contains "Response")),
        ⟨(collate msgs).1,
          (legacyLoop exec t.tmpl.main (collate msgs).2 "" "" [] "").2.2.1, "", [], []⟩⟩] := by
  cases hfin : (exec (cutResponse t.tmpl.main)
      ⟨(collate msgs).1, (legacyLoop exec t.tmpl.main (collate msgs).2 "" "" [] "").2.2.1,
        "", [], []⟩).2 with
  | some e =>
    rw [executeM_legacy_ok_err exec t msgs tools e hm hl hfin]
    rw [cutResponse_eq_takeWhile]
  | none =>
    rw [executeM_legacy_ok_ok exec t msgs tools hm hl hfin]
    rw [cutResponse_eq_takeWhile]

/-- Witness for C1: the legacy `.Prompt`-only template with one user
message renders the final block from the untruncated tree (no node
references "Response" after the synthetic-node-free compilation here)
with the pending prompt bound. -/
theorem claim_c1_witness :
    (ExecuteM zeroExec promptTmpl [⟨"user", "hi", [], []⟩] []).1 =
      (legacyLoop zeroExec promptTmpl.tmpl.main (collate [⟨"user", "hi", [], []⟩]).2
        "" "" [] "").1 ++
      [⟨promptTmpl.tmpl.main.takeWhile (fun n => !((Identifiers n).contains "Response")),
        ⟨(collate [⟨"user", "hi", [], []⟩]).1,
          (legacyLoop zeroExec promptTmpl.tmpl.main (collate [⟨"user", "hi", [], []⟩]).2
            "" "" [] "").2.2.1, "", [], []⟩⟩] :=
  claim_c1_amended zeroExec promptTmpl [⟨"user", "hi", [], []⟩] [] rfl rfl

/-! Claim C2: which variable makes a template "modern". -/

/-- C2 counterexample: the template `{{ .Response }}` has "response" in
its lowercased variable set but not "messages"; Execute sends it down the
legacy path — the single call it makes executes the truncated (here empty)
tree with Prompt bound, not the modern {System, Messages, Tools} render of
the full tree. -/
theorem claim_c2_counterexample :
    (ExecuteM zeroExec respTmpl [⟨"user", "hi", [], []⟩] []).1 =
      [⟨[], ⟨"", "hi", "", [], []⟩⟩] ∧
    ([⟨[], ⟨"", "hi", "", [], []⟩⟩] : List ExecCall) ≠
      [⟨respTmpl.tmpl.main, ⟨(collate [⟨"user", "hi", [], []⟩]).1, "", "",
        (collate [⟨"user", "hi", [], []⟩]).2, []⟩⟩] := by
  constructor
  · rfl
  · simp [respTmpl, responseNode]

/-- C2 amended: Execute treats a template as modern — one render of the
full tree with bindings {System, Messages, Tools} — exactly when its
variable set contains "messages"; "response" plays no role in Execute's
path choice (it only suppresses the synthetic node in Parse), so a
template referencing "response" but not "messages" takes the legacy path,
none of whose render calls binds Messages or Tools. -/
theorem claim_c2_amended :
    (∀ (exec : Exec) (t : Template) (msgs : List Message) (tools : List Tool),
      (VarsOf t.tmpl).contains "messages" = true →
      ExecuteM exec t msgs tools =
        ([⟨t.tmpl.main, ⟨(collate msgs).1, "", "", (collate msgs).2, tools⟩⟩],
          (exec t.tmpl.main ⟨(collate msgs).1, "", "", (collate msgs).2, tools⟩).1,
          (exec t.tmpl.main ⟨(collate msgs).1, "", "", (collate msgs).2, tools⟩).2)) ∧
    (∀ (exec : Exec) (t : Template) (msgs : List Message) (tools : List Tool),
      (VarsOf t.tmpl).contains "messages" = false →
      ∀ c ∈ (ExecuteM exec t msgs tools).1, c.binds.messages = [] ∧ c.binds.tools = []) := by
  constructor
  · exact executeM_modern
  · intro exec t msgs tools h c hc
    have hloop : ∀ c' ∈ (legacyLoop exec t.tmpl.main (collate msgs).2 "" "" [] "").1,
        c'.binds.messages = [] ∧ c'.binds.tools = [] := by
      intro c' hc'
      rcases legacyLoop_calls_shape exec t.tmpl.main (collate msgs).2 "" "" [] "" c' hc' with
        h' | h'
      · simp at h'
      · exact ⟨h'.2.2.2.2.1, h'.2.2.2.2.2⟩
    cases hl : (legacyLoop exec t.tmpl.main (collate msgs).2 "" "" [] "").2.2.2.2 with
    | some e =>
      rw [executeM_legacy_err exec t msgs tools e h hl] at hc
      exact hloop c hc
    | none =>
      cases hfin : (exec (cutResponse t.tmpl.main)
          ⟨(collate msgs).1, (legacyLoop exec t.tmpl.main (collate msgs).2 "" "" [] "").2.2.1,
            "", [], []⟩).2 with
      | some e =>
        rw [executeM_legacy_ok_err exec t msgs tools e h hl hfin] at hc
        rcases List.mem_append.mp hc with h' | h'
        · exact hloop c h'
        · rw [List.mem_singleton.mp h']
          exact ⟨rfl, rfl⟩
      | none =>
        rw [executeM_legacy_ok_ok exec t msgs tools h hl hfin] at hc
        rcases List.mem_append.mp hc with h' | h'
        · exact hloop c h'
        · rw [List.mem_singleton.mp h']
          exact ⟨rfl, rfl⟩

/-- Witness for C2: a `{{ .Messages }}` template renders once with the
modern bindings. -/
theorem claim_c2_witness :
    ExecuteM zeroExec msgsTmpl [⟨"user", "hi", [], []⟩] [] =
      ([⟨msgsTmpl.tmpl.main, ⟨"", "", "", [⟨"user", "hi", [], []⟩], []⟩⟩], "", none) := by
  rw [claim_c2_amended.1 zeroExec msgsTmpl [⟨"user", "hi", [], []⟩] [] rfl]
  rfl

/-! Claim C10: output buffering on the legacy path. -/

theorem legacyLoop_buf (exec : Exec) (tree : List Node) :
    ∀ (msgs : List Message) (p r : String) (calls : List ExecCall) (buf : String),
    ∃ extra : List ExecCall,
      (legacyLoop exec tree msgs p r calls buf).1 = calls ++ extra ∧
      (legacyLoop exec tree msgs p r calls buf).2.1 =
        buf ++ joinStr (extra.map (fun c => (exec c.tree c.binds).1)) := by
  intro msgs
  induction msgs with
  | nil =>
    intro p r calls buf
    exact ⟨[], by simp [legacyLoop], by simp [legacyLoop, joinStr, String.append_empty]⟩
  | cons m rest ih =>
    intro p r calls buf
    simp only [legacyLoop]
    by_cases hcond : (rest ≠ [] ∧ (if m.role == "user" then m.content else p) ≠ "" ∧
        (if m.role == "user" then r else m.content) ≠ "")
    · rw [if_pos hcond]
      cases h2 : (exec tree ⟨"", if m.role == "user" then m.content else p,
          if m.role == "user" then r else m.content, [], []⟩).2 with
      | some e =>
        refine ⟨[⟨tree, ⟨"", if m.role == "user" then m.content else p,
          if m.role == "user" then r else m.content, [], []⟩⟩], rfl, ?_⟩
        simp [joinStr, String.append_empty]
      | none =>
        obtain ⟨extra, h1, h2'⟩ := ih "" ""
          (calls ++ [⟨tree, ⟨"", if m.role == "user" then m.content else p,
            if m.role == "user" then r else m.content, [], []⟩⟩])
          (buf ++ (exec tree ⟨"", if m.role == "user" then m.content else p,
            if m.role == "user" then r else m.content, [], []⟩).1)
        refine ⟨⟨tree, ⟨"", if m.role == "user" then m.content else p,
          if m.role == "user" then r else m.content, [], []⟩⟩ :: extra, ?_, ?_⟩
        · rw [h1]; simp
        · rw [h2']
          simp [joinStr, String.append_assoc]
    · rw [if_neg hcond]
      exact ih _ _ _ _

/-- C10: on the legacy path Execute is atomic with respect to the output
sink: every per-turn and final truncated render goes into an internal
buffer; if any template execution fails no bytes at all reach the sink,
and on success the sink receives exactly the concatenation of all render
outputs. The modern path instead hands the sink to the evaluator directly,
so it receives whatever the evaluator wrote even on failure. -/
theorem claim_c10 :
    (∀ (exec : Exec) (t : Template) (msgs : List Message) (tools : List Tool),
      (VarsOf t.tmpl).contains "messages" = false →
      ((ExecuteM exec t msgs tools).2.2 ≠ none → (ExecuteM exec t msgs tools).2.1 = "") ∧
      ((ExecuteM exec t msgs tools).2.2 = none →
        (ExecuteM exec t msgs tools).2.1 =
          joinStr ((ExecuteM exec t msgs tools).1.map (fun c => (exec c.tree c.binds).1)))) ∧
    (∀ (exec : Exec) (t : Template) (msgs : List Message) (tools : List Tool),
      (VarsOf t.tmpl).contains "messages" = true →
      (ExecuteM exec t msgs tools).2.1 =
        (exec t.tmpl.main ⟨(collate msgs).1, "", "", (collate msgs).2, tools⟩).1) := by
  constructor
  · intro exec t msgs tools h
    cases hl : (legacyLoop exec t.tmpl.main (collate msgs).2 "" "" [] "").2.2.2.2 with
    | some e =>
      rw [executeM_legacy_err exec t msgs tools e h hl]
      exact ⟨fun _ => rfl, fun hc => absurd hc (by simp)⟩
    | none =>
      cases hfin : (exec (cutResponse t.tmpl.main)
          ⟨(collate msgs).1, (legacyLoop exec t.tmpl.main (collate msgs).2 "" "" [] "").2.2.1,
            "", [], []⟩).2 with
      | some e =>
        rw [executeM_legacy_ok_err exec t msgs tools e h hl hfin]
        exact ⟨fun _ => rfl, fun hc => absurd hc (by simp)⟩
      | none =>
        rw [executeM_legacy_ok_ok exec t msgs tools h hl hfin]
        refine ⟨fun hc => absurd rfl hc, fun _ => ?_⟩
        obtain ⟨extra, h1, h2⟩ := legacyLoop_buf exec t.tmpl.main (collate msgs).2 "" "" [] ""
        rw [List.nil_append] at h1
        dsimp only
        rw [h2, h1, List.map_append, joinStr_append, String.empty_append]
        simp [joinStr, String.append_empty]
  · intro exec t msgs tools h
    rw [executeM_modern exec t msgs tools h]

/-- Witness for C10: a failing evaluator on a legacy template writes
nothing to the sink. -/
theorem claim_c10_witness : (ExecuteM failExec promptTmpl [] []).2.1 = "" :=
  (claim_c10.1 failExec promptTmpl [] [] rfl).1 (by decide)

end Ollama
